import Mathlib

set_option autoImplicit false

namespace YTSum

/-!
Verification of the incremental YouTube summarizer pipeline.

Shallow embedding of the repository's state store (`src/state.js`), the
orchestrator loop (`index.js`), the chunked transcription adapter
(`src/transcription.js`, OpenAI Whisper variant with ffmpeg segmentation),
the local-whisper transcription normalizer, and the state persistence layer.
External effects (yt-dlp, ffmpeg/ffprobe, the OpenAI API, the filesystem,
the clock) are modeled as explicit oracles threaded through the
definitions; the control flow and the arithmetic are translated directly
from the JavaScript source.
-/

/-! ## State store (`src/state.js`) -/

/-- `state.json` in-memory shape: `lastRun` plus the `processedVideos`
object.  A JS object literal is modeled as an ordered association list
with unique keys; `markVideoProcessed`'s spread update preserves the
position of an existing key and appends a fresh one. -/
structure ProcessingState where
  lastRun : Option String
  processedVideos : List (String × String)
deriving Repr, DecidableEq

/-- The default state returned by `loadState` when reading fails. -/
def defaultState : ProcessingState := ⟨none, []⟩

/-- The keys of `state.processedVideos`. -/
def keysOf (s : ProcessingState) : List String := s.processedVideos.map Prod.fst

/-- `isVideoProcessed(state, videoId)`: `videoId in state.processedVideos`. -/
def isVideoProcessed (s : ProcessingState) (videoId : String) : Bool :=
  (s.processedVideos.map Prod.fst).contains videoId

/-- JS spread `\x7b ...obj, [k]: v \x7d`: update the value in place when the
key is present, otherwise append the new binding. -/
def setKey (l : List (String × String)) (k v : String) : List (String × String) :=
  if (l.map Prod.fst).contains k then
    l.map (fun p => if p.1 = k then (k, v) else p)
  else l ++ [(k, v)]

/-- `markVideoProcessed(state, videoId)`; the `new Date().toISOString()`
value is supplied by the caller as `now`. -/
def markVideoProcessed (s : ProcessingState) (videoId now : String) : ProcessingState :=
  { s with processedVideos := setKey s.processedVideos videoId now }

/-- `updateLastRun(state)`. -/
def updateLastRun (s : ProcessingState) (now : String) : ProcessingState :=
  { s with lastRun := some now }

/-! ## Orchestrator loop (`index.js` `main`) -/

/-- The fields of a fetched video the loop inspects.  `duration` is
`Option` because yt-dlp may omit it (JS `undefined`). -/
structure Video where
  id : String
  duration : Option ℚ
deriving Repr, DecidableEq

/-- `MAX_VIDEO_DURATION` from `src/config.js` (seconds). -/
def MAX_VIDEO_DURATION : ℚ := 3600

/-- The JS number produced by `parseInt` on the `--limit` argument:
either an integer or `NaN`. -/
inductive JsNum where
  | nan
  | num (n : ℤ)
deriving Repr, DecidableEq

/-- JS `processedCount >= videoLimit` where `processedCount` is a
nonnegative integer: any comparison against `NaN` is `false`. -/
def jsGeNat (k : ℕ) : JsNum → Bool
  | .nan => false
  | .num n => decide (n ≤ (k : ℤ))

/-- `if (video.duration && video.duration > MAX_VIDEO_DURATION)`:
an absent or zero (falsy) duration never triggers the skip. -/
def isTooLong (v : Video) : Bool :=
  match v.duration with
  | none => false
  | some d => decide (d ≠ 0) && decide (MAX_VIDEO_DURATION < d)

/-- Oracles for the loop's external effects: whether a given channel's
fetch yields which videos, whether one item's per-item steps (metadata,
thumbnail, audio, transcription, analysis) complete without an exception,
and the timestamp `new Date().toISOString()` observed when marking an id. -/
structure RunEnv where
  fetch : String → List Video
  itemOk : String → Bool
  now : String → String

/-- Observable outcome of one channel's item loop. -/
structure ChannelResult where
  finalState : ProcessingState
  attempted : List Video
  skipped : List Video
  notConsidered : List Video
  savedStates : List ProcessingState
deriving Repr, DecidableEq

/-- The per-channel item loop of `main` (`index.js`): stop on the
`processedCount >= videoLimit` check, skip already-processed items unless
`--test`, skip over-long items, otherwise attempt the item — marking it
processed exactly when its steps raise no exception — then push the
analysis, increment `processedCount`, and call `saveState` with the
current in-memory state (recorded in `savedStates`). -/
def runChannel (env : RunEnv) (isTestMode : Bool) (videoLimit : JsNum) :
    List Video → ProcessingState → ℕ → ChannelResult
  | [], s, _ => ⟨s, [], [], [], []⟩
  | v :: rest, s, count =>
    if jsGeNat count videoLimit then ⟨s, [], [], v :: rest, []⟩
    else if isVideoProcessed s v.id && !isTestMode then
      let r := runChannel env isTestMode videoLimit rest s count
      { r with skipped := v :: r.skipped }
    else if isTooLong v then
      let r := runChannel env isTestMode videoLimit rest s count
      { r with skipped := v :: r.skipped }
    else
      let s' := if env.itemOk v.id then markVideoProcessed s v.id (env.now v.id) else s
      let r := runChannel env isTestMode videoLimit rest s' (count + 1)
      { r with attempted := v :: r.attempted, savedStates := s' :: r.savedStates }

/-- Observable outcome of a whole run (the channel loop of `main`). -/
structure RunResult where
  finalState : ProcessingState
  attempted : List Video
  savedStates : List ProcessingState
deriving Repr, DecidableEq

/-- The outer loop of `main`: each channel is fetched (a fetch failure
yields `[]`, which also covers the zero-videos `continue`) and processed
with a fresh `processedCount = 0`, threading the state. -/
def runAll (env : RunEnv) (isTestMode : Bool) (videoLimit : JsNum) :
    List String → ProcessingState → RunResult
  | [], s => ⟨s, [], []⟩
  | ch :: rest, s =>
    let r := runChannel env isTestMode videoLimit (env.fetch ch) s 0
    let rr := runAll env isTestMode videoLimit rest r.finalState
    ⟨rr.finalState, r.attempted ++ rr.attempted, r.savedStates ++ rr.savedStates⟩

/-- The ids `markVideoProcessed` was reached for: attempted items whose
steps completed without an exception. -/
def okIds (env : RunEnv) (l : List Video) : List String :=
  (l.filter (fun v => env.itemOk v.id)).map Video.id

/-- A concrete oracle environment used by witnesses: one channel fetch
yields a fresh short video `a`, a fresh over-long video `long`, and a
fresh short video `b`; item `b`'s processing steps raise an exception,
the others succeed. -/
def wEnv : RunEnv where
  fetch := fun _ => [⟨"a", some 300⟩, ⟨"long", some 4000⟩, ⟨"b", none⟩]
  itemOk := fun id => id ≠ "b"
  now := fun _ => "2026-02-03T00:00:00.000Z"

/-! ## State loading (`src/state.js` `loadState`)

`loadState` is `JSON.parse(await fs.readFile(...))` in a `try`/`catch`
returning the default state.  The file's possible conditions are: the
read throws, `JSON.parse` throws, or `JSON.parse` yields a JSON value,
which `loadState` returns unchanged — there is no shape validation. -/

/-- A JSON value: the possible successful results of `JSON.parse`. -/
inductive JValue where
  | null
  | bool (b : Bool)
  | num (q : ℚ)
  | str (s : String)
  | arr (l : List JValue)
  | obj (l : List (String × JValue))

/-- Outcome of `fs.readFile` followed by `JSON.parse`. -/
inductive ReadResult where
  | fileError
  | parseError
  | parsed (v : JValue)

/-- The default state literal in `loadState`'s catch branch:
`lastRun: null`, `processedVideos` an empty object. -/
def freshJState : JValue := .obj [("lastRun", .null), ("processedVideos", .obj [])]

/-- `loadState()`: the `try` returns whatever `JSON.parse` produced; the
`catch` — reached only when the read or the parse throws — returns the
default state. -/
def loadState : ReadResult → JValue
  | .fileError => freshJState
  | .parseError => freshJState
  | .parsed v => v

/-! ## State persistence (`src/state.js` `saveState`) -/

/-- Primitive filesystem steps.  `fs.writeFile` is an open-with-truncate
followed by writing the data; `rename` is the atomic primitive a
write-then-rename save would use. -/
inductive FsOp where
  | truncate (path : String)
  | append (path : String) (data : String)
  | rename (src dst : String)

/-- Is this step a rename? -/
def FsOp.isRen : FsOp → Bool
  | .rename _ _ => true
  | _ => false

/-- The filesystem: contents by path. -/
def Files : Type := String → Option String

/-- Effect of one primitive step. -/
def applyOp (fs : Files) : FsOp → Files
  | .truncate p => fun q => if q = p then some "" else fs q
  | .append p d => fun q => if q = p then some ((fs p).getD "" ++ d) else fs q
  | .rename a b => fun q => if q = b then fs a else if q = a then none else fs q

/-- Run a sequence of primitive steps. -/
def runOps (fs : Files) (ops : List FsOp) : Files := ops.foldl applyOp fs

/-- `PATHS.state` from `src/config.js`. -/
def statePath : String := "./state.json"

/-- `fs.writeFile(PATHS.state, stateJson)` as performed by `saveState`:
one direct truncating write to the final path — no temporary file, no
rename. -/
def saveStateOps (stateJson : String) : List FsOp :=
  [.truncate statePath, .append statePath stateJson]

/-- `saveState(state)`: the write wrapped in `try`/`catch` — on failure
the error is logged and the function returns normally with the
filesystem untouched. -/
def saveState (writeOk : Bool) (fs : Files) (stateJson : String) : Files :=
  if writeOk then runOps fs (saveStateOps stateJson) else fs

/-- The run's sequence of `saveState` calls (one per attempted item, then
the final one), `writeOk k` telling whether the `k`-th write succeeds. -/
def persistFrom (writeOk : ℕ → Bool) : ℕ → Files → List String → Files
  | _, fs, [] => fs
  | k, fs, j :: rest => persistFrom writeOk (k + 1) (saveState (writeOk k) fs j) rest

/-- A state file holding the old serialized state. -/
def oldFiles : Files := fun p => if p = statePath then some "OLD" else none

/-! ## Chunked transcription (`src/transcription.js`, Whisper-API variant)

`transcribeAudio` sends an under-budget file to the API directly;
otherwise it probes the duration with ffprobe, computes a chunk duration,
splits with `ffmpeg -f segment`, transcribes the chunks in index order
(a failed chunk contributing `''`), joins with `' '` and deletes the
chunk files.  ffprobe, ffmpeg, the API and `unlinkSync` are oracles. -/

/-- `MAX_CHUNK_SIZE_MB` (20 MB safety budget under the 25 MB API limit). -/
def MAX_CHUNK_SIZE_MB : ℚ := 20

/-- `chunkDurationSec = Math.floor(MAX_CHUNK_SIZE_MB / mbPerSecond)` with
`mbPerSecond = fileSizeInMB / duration`. -/
def chunkDurationSec (fileSizeInMB duration : ℚ) : ℤ :=
  ⌊MAX_CHUNK_SIZE_MB / (fileSizeInMB / duration)⌋

/-- Number of segments `ffmpeg -f segment -segment_time c` produces for a
duration-`D` input: `⌈D / c⌉` when the segment time is positive. -/
def numSegments (c D : ℚ) : ℕ := if c ≤ 0 then 0 else (⌈D / c⌉).toNat

/-- Time ranges of ffmpeg's segments: segment `i` covers
`[i*c, min((i+1)*c, D))`, the last one ending at `D`. -/
def segmentRanges (c D : ℚ) : List (ℚ × ℚ) :=
  (List.range (numSegments c D)).map
    (fun (i : ℕ) => ((i : ℚ) * c, min (((i : ℚ) + 1) * c) D))

/-- The time ranges of the chunks `transcribeAudio` plans for an
oversized asset: ffmpeg segmentation at the computed `chunkDurationSec`. -/
def planChunks (fileSizeInMB duration : ℚ) : List (ℚ × ℚ) :=
  segmentRanges ((chunkDurationSec fileSizeInMB duration : ℤ) : ℚ) duration

/-- `coversFromB a rs b = true` iff the ranges `rs` tile `[a, b)` head to
tail: each range starts exactly where the previous one ended, and the
last one ends at `b` (consecutive, no gaps, no overlaps, exact union). -/
def coversFromB : ℚ → List (ℚ × ℚ) → ℚ → Bool
  | a, [], b => a == b
  | a, r :: rest, b => (r.1 == a) && coversFromB r.2 rest b

/-- Oracles for one asset's transcription: `statOk`/`sizeMB` from
`fs.statSync`, `duration` from `getAudioDuration` (which returns `0` when
ffprobe fails), `chunkFiles` from `splitAudio` (sorted chunk paths; `[]`
when ffmpeg fails), `apiText` for the per-file Whisper call (`none` =
call throws), and `unlinkOk` for `fs.unlinkSync`. -/
structure TranscribeEnv where
  statOk : Bool
  sizeMB : ℚ
  duration : ℚ
  chunkFiles : ℤ → List String
  apiText : String → Option String
  unlinkOk : String → Bool

/-- One iteration of `cleanupChunks`: `if (fs.existsSync(chunk))
fs.unlinkSync(chunk)` with the per-file `try`/`catch` swallowing a
deletion failure. -/
def cleanupStep (env : TranscribeEnv) (fs : List String) (chunk : String) : List String :=
  if fs.contains chunk && env.unlinkOk chunk then fs.filter (fun p => p ≠ chunk) else fs

/-- `cleanupChunks(chunkPaths)`: best-effort deletion of every chunk
file, in order, failures ignored. -/
def cleanupChunks (env : TranscribeEnv) (chunkPaths : List String) (fs : List String) :
    List String :=
  chunkPaths.foldl (cleanupStep env) fs

/-- Observable outcome of `transcribeAudio`: the returned value, the
chunk paths sent to the API (in call order), whether `cleanupChunks` ran,
and the filesystem afterwards. -/
structure TranscribeResult where
  result : Option String
  chunkCalls : List String
  cleanupRan : Bool
  fsAfter : List String
deriving Repr, DecidableEq

/-- `transcribeAudio(audioPath)` (Whisper-API variant): direct call when
at or under budget (`none` when the call throws, via the outer `catch`);
otherwise `null` when the probed duration is `0` or the split yields no
chunks, else the chunk texts — `''` for a failed chunk — joined with a
single space in chunk order, followed by unconditional cleanup. -/
def transcribeAudio (env : TranscribeEnv) (audioPath : String) (fs : List String) :
    TranscribeResult :=
  if ¬ env.statOk then ⟨none, [], false, fs⟩
  else if env.sizeMB ≤ MAX_CHUNK_SIZE_MB then
    match env.apiText audioPath with
    | some t => ⟨some t, [], false, fs⟩
    | none => ⟨none, [], false, fs⟩
  else if env.duration = 0 then ⟨none, [], false, fs⟩
  else if env.chunkFiles (chunkDurationSec env.sizeMB env.duration) = [] then
    ⟨none, [], false, fs⟩
  else
    ⟨some (String.intercalate " "
        ((env.chunkFiles (chunkDurationSec env.sizeMB env.duration)).map
          (fun p => (env.apiText p).getD ""))),
     env.chunkFiles (chunkDurationSec env.sizeMB env.duration),
     true,
     cleanupChunks env (env.chunkFiles (chunkDurationSec env.sizeMB env.duration)) fs⟩

/-- The concrete four-chunk environment of the spec's partial-failure
example: chunk `2` (0-based) fails, the others succeed. -/
def fourChunkEnv : TranscribeEnv where
  statOk := true
  sizeMB := 25
  duration := 100
  chunkFiles := fun _ => ["c0", "c1", "c2", "c3"]
  apiText := fun q =>
    if q = "c0" then some "t0"
    else if q = "c1" then some "t1"
    else if q = "c3" then some "t3"
    else none
  unlinkOk := fun _ => true

/-- A probe-failure environment: ffprobe could not determine the
duration of the oversized asset, so `getAudioDuration` returned `0`. -/
def probeFailEnv : TranscribeEnv where
  statOk := true
  sizeMB := 25
  duration := 0
  chunkFiles := fun _ => ["c0"]
  apiText := fun _ => some "t"
  unlinkOk := fun _ => true

/-- A fully successful chunked transcription whose source asset file
`b.mp3` is present alongside its single chunk file. -/
def keptAssetEnv : TranscribeEnv where
  statOk := true
  sizeMB := 25
  duration := 100
  chunkFiles := fun _ => ["b_chunk_000.mp3"]
  apiText := fun _ => some "hi"
  unlinkOk := fun _ => true

/-- A cleanup scenario with one failing deletion: `d0`'s unlink throws,
`d1`'s succeeds. -/
def unlinkFailEnv : TranscribeEnv where
  statOk := true
  sizeMB := 25
  duration := 100
  chunkFiles := fun _ => ["d0", "d1"]
  apiText := fun _ => none
  unlinkOk := fun q => q ≠ "d0"

/-! ## Local whisper transcription (`src/transcription.js`) -/

/-- JS whitespace: the class `\s` matches and `trim` strips. -/
def isWs (c : Char) : Bool := c.isWhitespace

/-- `String.prototype.trim()`: strip leading and trailing whitespace. -/
def trimChars (l : List Char) : List Char :=
  ((l.dropWhile isWs).reverse.dropWhile isWs).reverse

/-- `.replace(/\s+/g, ' ')`: each maximal whitespace run becomes one
space. -/
def collapseWs : List Char → List Char
  | [] => []
  | [c] => if isWs c then [' '] else [c]
  | c :: d :: rest =>
    if isWs c then
      if isWs d then collapseWs (d :: rest)
      else ' ' :: collapseWs (d :: rest)
    else c :: collapseWs (d :: rest)

/-- `stdout.trim().replace(/\s+/g, ' ')` from the local `transcribeAudio`. -/
def normalizeWs (s : String) : String := ⟨collapseWs (trimChars s.data)⟩

/-- Oracles for the local transcription: whether `statSync` succeeds and
the stdout of the whisper invocation (`none` when `execAsync` throws). -/
structure LocalEnv where
  statOk : Bool
  execResult : Option String

/-- `transcribeAudio` from `src/transcription.js` (local whisper.cpp
variant; named `localTranscribeAudio` here because the Whisper-API
variant of the repository already claims the name): the tool's stdout
trimmed with whitespace runs collapsed, or `null` when `statSync` or the
invocation throws. -/
def localTranscribeAudio (env : LocalEnv) : Option String :=
  if ¬ env.statOk then none
  else
    match env.execResult with
    | none => none
    | some stdout => some (normalizeWs stdout)

/-! ## Theorems -/

theorem keysOf_setKey (l : List (String × String)) (k v x : String) :
    x ∈ (setKey l k v).map Prod.fst ↔ x = k ∨ x ∈ l.map Prod.fst := by
  unfold setKey
  split
  · rename_i hc
    rw [List.contains, List.elem_iff] at hc
    have hf : (Prod.fst ∘ fun p : String × String => if p.1 = k then (k, v) else p)
        = Prod.fst := by
      funext p
      by_cases h : p.1 = k <;> simp [h]
    rw [List.map_map, hf]
    constructor
    · exact Or.inr
    · rintro (rfl | h)
      · exact hc
      · exact h
  · simp [or_comm, eq_comm]

theorem keysOf_markVideoProcessed (s : ProcessingState) (videoId now x : String) :
    x ∈ keysOf (markVideoProcessed s videoId now) ↔ x = videoId ∨ x ∈ keysOf s :=
  keysOf_setKey s.processedVideos videoId now x

theorem isVideoProcessed_iff (s : ProcessingState) (videoId : String) :
    isVideoProcessed s videoId = true ↔ videoId ∈ keysOf s := by
  simp [isVideoProcessed, keysOf, List.contains, List.elem_iff]

theorem okIds_nil (env : RunEnv) : okIds env [] = [] := rfl

theorem okIds_cons (env : RunEnv) (v : Video) (l : List Video) :
    okIds env (v :: l)
      = if env.itemOk v.id then v.id :: okIds env l else okIds env l := by
  simp only [okIds, List.filter_cons]
  split <;> simp

theorem okIds_append (env : RunEnv) (l₁ l₂ : List Video) :
    okIds env (l₁ ++ l₂) = okIds env l₁ ++ okIds env l₂ := by
  simp [okIds]

theorem runChannel_nil (env : RunEnv) (t : Bool) (lim : JsNum)
    (s : ProcessingState) (count : ℕ) :
    runChannel env t lim [] s count = ⟨s, [], [], [], []⟩ := rfl

theorem runChannel_cons_break (env : RunEnv) (t : Bool) (lim : JsNum)
    (v : Video) (rest : List Video) (s : ProcessingState) (count : ℕ)
    (h1 : jsGeNat count lim = true) :
    runChannel env t lim (v :: rest) s count = ⟨s, [], [], v :: rest, []⟩ := by
  simp [runChannel, h1]

theorem runChannel_cons_skipProcessed (env : RunEnv) (t : Bool) (lim : JsNum)
    (v : Video) (rest : List Video) (s : ProcessingState) (count : ℕ)
    (h1 : jsGeNat count lim = false) (h2 : (isVideoProcessed s v.id && !t) = true) :
    runChannel env t lim (v :: rest) s count =
      ⟨(runChannel env t lim rest s count).finalState,
       (runChannel env t lim rest s count).attempted,
       v :: (runChannel env t lim rest s count).skipped,
       (runChannel env t lim rest s count).notConsidered,
       (runChannel env t lim rest s count).savedStates⟩ := by
  simp [runChannel, h1, h2]

theorem runChannel_cons_skipLong (env : RunEnv) (t : Bool) (lim : JsNum)
    (v : Video) (rest : List Video) (s : ProcessingState) (count : ℕ)
    (h1 : jsGeNat count lim = false) (h2 : (isVideoProcessed s v.id && !t) = false)
    (h3 : isTooLong v = true) :
    runChannel env t lim (v :: rest) s count =
      ⟨(runChannel env t lim rest s count).finalState,
       (runChannel env t lim rest s count).attempted,
       v :: (runChannel env t lim rest s count).skipped,
       (runChannel env t lim rest s count).notConsidered,
       (runChannel env t lim rest s count).savedStates⟩ := by
  simp [runChannel, h1, h2, h3]

theorem runChannel_cons_attempt (env : RunEnv) (t : Bool) (lim : JsNum)
    (v : Video) (rest : List Video) (s : ProcessingState) (count : ℕ)
    (h1 : jsGeNat count lim = false) (h2 : (isVideoProcessed s v.id && !t) = false)
    (h3 : isTooLong v = false) :
    runChannel env t lim (v :: rest) s count =
      ⟨(runChannel env t lim rest
          (if env.itemOk v.id then markVideoProcessed s v.id (env.now v.id) else s)
          (count + 1)).finalState,
       v :: (runChannel env t lim rest
          (if env.itemOk v.id then markVideoProcessed s v.id (env.now v.id) else s)
          (count + 1)).attempted,
       (runChannel env t lim rest
          (if env.itemOk v.id then markVideoProcessed s v.id (env.now v.id) else s)
          (count + 1)).skipped,
       (runChannel env t lim rest
          (if env.itemOk v.id then markVideoProcessed s v.id (env.now v.id) else s)
          (count + 1)).notConsidered,
       (if env.itemOk v.id then markVideoProcessed s v.id (env.now v.id) else s) ::
         (runChannel env t lim rest
           (if env.itemOk v.id then markVideoProcessed s v.id (env.now v.id) else s)
           (count + 1)).savedStates⟩ := by
  simp [runChannel, h1, h2, h3]

theorem runChannel_saved_length (env : RunEnv) (t : Bool) (lim : JsNum)
    (videos : List Video) : ∀ (s : ProcessingState) (count : ℕ),
    (runChannel env t lim videos s count).savedStates.length
      = (runChannel env t lim videos s count).attempted.length := by
  induction videos with
  | nil => intro s count; rfl
  | cons v rest ih =>
    intro s count
    cases h1 : jsGeNat count lim with
    | true =>
      rw [runChannel_cons_break env t lim v rest s count h1]
      rfl
    | false =>
      cases h2 : (isVideoProcessed s v.id && !t) with
      | true =>
        rw [runChannel_cons_skipProcessed env t lim v rest s count h1 h2]
        exact ih s count
      | false =>
        cases h3 : isTooLong v with
        | true =>
          rw [runChannel_cons_skipLong env t lim v rest s count h1 h2 h3]
          exact ih s count
        | false =>
          rw [runChannel_cons_attempt env t lim v rest s count h1 h2 h3]
          simpa using ih _ (count + 1)

theorem runChannel_finalState_keys (env : RunEnv) (t : Bool) (lim : JsNum)
    (videos : List Video) : ∀ (s : ProcessingState) (count : ℕ) (x : String),
    x ∈ keysOf (runChannel env t lim videos s count).finalState ↔
      x ∈ keysOf s ∨ x ∈ okIds env (runChannel env t lim videos s count).attempted := by
  induction videos with
  | nil => intro s count x; simp [runChannel_nil, okIds_nil]
  | cons v rest ih =>
    intro s count x
    cases h1 : jsGeNat count lim with
    | true => rw [runChannel_cons_break env t lim v rest s count h1]; simp [okIds_nil]
    | false =>
      cases h2 : (isVideoProcessed s v.id && !t) with
      | true =>
        rw [runChannel_cons_skipProcessed env t lim v rest s count h1 h2]
        exact ih s count x
      | false =>
        cases h3 : isTooLong v with
        | true =>
          rw [runChannel_cons_skipLong env t lim v rest s count h1 h2 h3]
          exact ih s count x
        | false =>
          rw [runChannel_cons_attempt env t lim v rest s count h1 h2 h3]
          by_cases hok : env.itemOk v.id = true
          · simp only [hok, if_true]
            have h := ih (markVideoProcessed s v.id (env.now v.id)) (count + 1) x
            simp only [okIds_cons, hok, if_true, List.mem_cons]
            rw [h, keysOf_markVideoProcessed]
            tauto
          · rw [if_neg hok]
            have h := ih s (count + 1) x
            simp only [okIds_cons, hok, if_false]
            simpa using h

theorem runChannel_savedStates_keys (env : RunEnv) (t : Bool) (lim : JsNum)
    (videos : List Video) : ∀ (s : ProcessingState) (count k : ℕ) (x : String),
    k < (runChannel env t lim videos s count).savedStates.length →
    (x ∈ keysOf ((runChannel env t lim videos s count).savedStates.getD k defaultState) ↔
      x ∈ keysOf s ∨
        x ∈ okIds env ((runChannel env t lim videos s count).attempted.take (k + 1))) := by
  induction videos with
  | nil => intro s count k x hk; simp [runChannel_nil] at hk
  | cons v rest ih =>
    intro s count k x hk
    cases h1 : jsGeNat count lim with
    | true =>
      rw [runChannel_cons_break env t lim v rest s count h1] at hk
      exact absurd (show k < ([] : List ProcessingState).length from hk) (by simp)
    | false =>
      cases h2 : (isVideoProcessed s v.id && !t) with
      | true =>
        rw [runChannel_cons_skipProcessed env t lim v rest s count h1 h2] at hk ⊢
        exact ih s count k x hk
      | false =>
        cases h3 : isTooLong v with
        | true =>
          rw [runChannel_cons_skipLong env t lim v rest s count h1 h2 h3] at hk ⊢
          exact ih s count k x hk
        | false =>
          rw [runChannel_cons_attempt env t lim v rest s count h1 h2 h3] at hk ⊢
          by_cases hok : env.itemOk v.id = true
          · simp only [hok, if_true] at hk ⊢
            match k with
            | 0 =>
              simp only [List.getD_cons_zero, List.take_succ_cons, List.take_zero]
              rw [keysOf_markVideoProcessed]
              simp [okIds_cons, hok, okIds_nil, or_comm]
            | k + 1 =>
              simp only [List.getD_cons_succ, List.take_succ_cons]
              simp only [List.length_cons, Nat.add_lt_add_iff_right] at hk
              have h := ih (markVideoProcessed s v.id (env.now v.id)) (count + 1) k x hk
              rw [h, keysOf_markVideoProcessed]
              simp only [okIds_cons, hok, if_true, List.mem_cons]
              tauto
          · rw [if_neg hok] at hk ⊢
            match k with
            | 0 =>
              simp only [List.getD_cons_zero, List.take_succ_cons, List.take_zero]
              simp [okIds_cons, hok, okIds_nil]
            | k + 1 =>
              simp only [List.getD_cons_succ, List.take_succ_cons]
              simp only [List.length_cons, Nat.add_lt_add_iff_right] at hk
              have h := ih s (count + 1) k x hk
              rw [h]
              simp [okIds_cons, hok]

theorem runChannel_attempted_fresh (env : RunEnv) (lim : JsNum)
    (videos : List Video) : ∀ (s : ProcessingState) (count : ℕ) (x : String),
    x ∈ keysOf s →
    ∀ v ∈ (runChannel env false lim videos s count).attempted, v.id ≠ x := by
  induction videos with
  | nil => intro s count x _ w hw; simp [runChannel_nil] at hw
  | cons v rest ih =>
    intro s count x hx w hw
    cases h1 : jsGeNat count lim with
    | true =>
      rw [runChannel_cons_break env false lim v rest s count h1] at hw
      simp at hw
    | false =>
      cases h2 : (isVideoProcessed s v.id && !(false : Bool)) with
      | true =>
        rw [runChannel_cons_skipProcessed env false lim v rest s count h1 h2] at hw
        exact ih s count x hx w hw
      | false =>
        cases h3 : isTooLong v with
        | true =>
          rw [runChannel_cons_skipLong env false lim v rest s count h1 h2 h3] at hw
          exact ih s count x hx w hw
        | false =>
          rw [runChannel_cons_attempt env false lim v rest s count h1 h2 h3] at hw
          simp only [List.mem_cons] at hw
          rcases hw with rfl | hw
          · intro hne
            have : isVideoProcessed s w.id = true := by
              rw [isVideoProcessed_iff]
              exact hne ▸ hx
            simp [this] at h2
          · refine ih _ (count + 1) x ?_ w hw
            by_cases hok : env.itemOk v.id = true
            · simp only [hok, if_true]
              rw [keysOf_markVideoProcessed]
              exact Or.inr hx
            · simpa [hok] using hx

theorem runChannel_nan_exhausts (env : RunEnv) (t : Bool)
    (videos : List Video) : ∀ (s : ProcessingState) (count : ℕ),
    (runChannel env t .nan videos s count).notConsidered = [] ∧
    (runChannel env t .nan videos s count).attempted.length
      + (runChannel env t .nan videos s count).skipped.length = videos.length := by
  induction videos with
  | nil => intro s count; exact ⟨rfl, rfl⟩
  | cons v rest ih =>
    intro s count
    have h1 : jsGeNat count JsNum.nan = false := rfl
    cases h2 : (isVideoProcessed s v.id && !t) with
    | true =>
      rw [runChannel_cons_skipProcessed env t .nan v rest s count h1 h2]
      dsimp only
      have h := ih s count
      refine ⟨h.1, ?_⟩
      simp only [List.length_cons]
      omega
    | false =>
      cases h3 : isTooLong v with
      | true =>
        rw [runChannel_cons_skipLong env t .nan v rest s count h1 h2 h3]
        dsimp only
        have h := ih s count
        refine ⟨h.1, ?_⟩
        simp only [List.length_cons]
        omega
      | false =>
        rw [runChannel_cons_attempt env t .nan v rest s count h1 h2 h3]
        dsimp only
        have h := ih (if env.itemOk v.id then markVideoProcessed s v.id (env.now v.id) else s)
          (count + 1)
        refine ⟨h.1, ?_⟩
        simp only [List.length_cons]
        omega

theorem runChannel_num_bound (env : RunEnv) (t : Bool) (n : ℤ)
    (videos : List Video) : ∀ (s : ProcessingState) (count : ℕ),
    count + (runChannel env t (.num n) videos s count).attempted.length
      ≤ max n.toNat count := by
  induction videos with
  | nil =>
    intro s count
    simp [runChannel_nil]
  | cons v rest ih =>
    intro s count
    cases h1 : jsGeNat count (JsNum.num n) with
    | true =>
      rw [runChannel_cons_break env t (.num n) v rest s count h1]
      simp
    | false =>
      have hlt : (count : ℤ) < n := by
        simp only [jsGeNat, decide_eq_false_iff_not, not_le] at h1
        exact h1
      cases h2 : (isVideoProcessed s v.id && !t) with
      | true =>
        rw [runChannel_cons_skipProcessed env t (.num n) v rest s count h1 h2]
        dsimp only
        have h := ih s count
        omega
      | false =>
        cases h3 : isTooLong v with
        | true =>
          rw [runChannel_cons_skipLong env t (.num n) v rest s count h1 h2 h3]
          dsimp only
          have h := ih s count
          omega
        | false =>
          rw [runChannel_cons_attempt env t (.num n) v rest s count h1 h2 h3]
          dsimp only
          have h := ih (if env.itemOk v.id then markVideoProcessed s v.id (env.now v.id) else s)
            (count + 1)
          simp only [List.length_cons]
          omega

theorem runAll_cons (env : RunEnv) (t : Bool) (lim : JsNum) (ch : String)
    (rest : List String) (s : ProcessingState) :
    runAll env t lim (ch :: rest) s =
      ⟨(runAll env t lim rest
          (runChannel env t lim (env.fetch ch) s 0).finalState).finalState,
       (runChannel env t lim (env.fetch ch) s 0).attempted ++
         (runAll env t lim rest
           (runChannel env t lim (env.fetch ch) s 0).finalState).attempted,
       (runChannel env t lim (env.fetch ch) s 0).savedStates ++
         (runAll env t lim rest
           (runChannel env t lim (env.fetch ch) s 0).finalState).savedStates⟩ := rfl

theorem runAll_saved_length (env : RunEnv) (t : Bool) (lim : JsNum)
    (channels : List String) : ∀ (s : ProcessingState),
    (runAll env t lim channels s).savedStates.length
      = (runAll env t lim channels s).attempted.length := by
  induction channels with
  | nil => intro s; rfl
  | cons ch rest ih =>
    intro s
    rw [runAll_cons]
    dsimp only
    rw [List.length_append, List.length_append, runChannel_saved_length, ih]

theorem runAll_finalState_keys (env : RunEnv) (t : Bool) (lim : JsNum)
    (channels : List String) : ∀ (s : ProcessingState) (x : String),
    x ∈ keysOf (runAll env t lim channels s).finalState ↔
      x ∈ keysOf s ∨ x ∈ okIds env (runAll env t lim channels s).attempted := by
  induction channels with
  | nil => intro s x; simp [runAll, okIds_nil]
  | cons ch rest ih =>
    intro s x
    rw [runAll_cons]
    dsimp only
    rw [ih, runChannel_finalState_keys, okIds_append, List.mem_append]
    tauto

theorem runAll_savedStates_keys (env : RunEnv) (t : Bool) (lim : JsNum)
    (channels : List String) : ∀ (s : ProcessingState) (k : ℕ) (x : String),
    k < (runAll env t lim channels s).savedStates.length →
    (x ∈ keysOf ((runAll env t lim channels s).savedStates.getD k defaultState) ↔
      x ∈ keysOf s ∨
        x ∈ okIds env ((runAll env t lim channels s).attempted.take (k + 1))) := by
  induction channels with
  | nil => intro s k x hk; simp [runAll] at hk
  | cons ch rest ih =>
    intro s k x hk
    rw [runAll_cons] at hk ⊢
    dsimp only at hk ⊢
    have hcl := runChannel_saved_length env t lim (env.fetch ch) s 0
    by_cases hlt : k < (runChannel env t lim (env.fetch ch) s 0).savedStates.length
    · rw [List.getD_append _ _ _ _ hlt,
        List.take_append_of_le_length (by omega : k + 1 ≤
          (runChannel env t lim (env.fetch ch) s 0).attempted.length)]
      exact runChannel_savedStates_keys env t lim (env.fetch ch) s 0 k x hlt
    · push_neg at hlt
      rw [List.getD_append_right _ _ _ _ hlt]
      rw [List.length_append] at hk
      have hk' : k - (runChannel env t lim (env.fetch ch) s 0).savedStates.length <
          (runAll env t lim rest
            (runChannel env t lim (env.fetch ch) s 0).finalState).savedStates.length := by
        omega
      rw [ih _ _ x hk']
      rw [runChannel_finalState_keys]
      rw [List.take_append_eq_append_take,
        List.take_of_length_le (by omega :
          (runChannel env t lim (env.fetch ch) s 0).attempted.length ≤ k + 1)]
      rw [okIds_append, List.mem_append]
      have harith : k + 1 - (runChannel env t lim (env.fetch ch) s 0).attempted.length
          = k - (runChannel env t lim (env.fetch ch) s 0).savedStates.length + 1 := by
        omega
      rw [harith]
      tauto

theorem runAll_attempted_fresh (env : RunEnv) (lim : JsNum)
    (channels : List String) : ∀ (s : ProcessingState) (x : String),
    x ∈ keysOf s →
    ∀ v ∈ (runAll env false lim channels s).attempted, v.id ≠ x := by
  induction channels with
  | nil => intro s x _ v hv; simp [runAll] at hv
  | cons ch rest ih =>
    intro s x hx v hv
    rw [runAll_cons] at hv
    dsimp only at hv
    rw [List.mem_append] at hv
    rcases hv with hv | hv
    · exact runChannel_attempted_fresh env lim (env.fetch ch) s 0 x hx v hv
    · refine ih _ x ?_ v hv
      rw [runChannel_finalState_keys]
      exact Or.inl hx

/-- Claim C1: in every run, the orchestrator calls `saveState` exactly
once after each attempted item (success or failure), and the state passed
to the `k`-th such save holds precisely the initially-loaded processed
ids plus the ids of the items among the first `k+1` attempts whose
processing completed without an exception.  Hence a process kill between
item `k` and item `k+1` loses no completed item: the last persisted
snapshot already contains every completed id. -/
theorem save_after_every_item (env : RunEnv) (t : Bool) (lim : JsNum)
    (channels : List String) (s₀ : ProcessingState) :
    (runAll env t lim channels s₀).savedStates.length
      = (runAll env t lim channels s₀).attempted.length ∧
    ∀ (k : ℕ) (x : String), k < (runAll env t lim channels s₀).savedStates.length →
      (x ∈ keysOf ((runAll env t lim channels s₀).savedStates.getD k defaultState) ↔
        x ∈ keysOf s₀ ∨
          x ∈ okIds env ((runAll env t lim channels s₀).attempted.take (k + 1))) :=
  ⟨runAll_saved_length env t lim channels s₀,
   fun k x hk => runAll_savedStates_keys env t lim channels s₀ k x hk⟩

/-- Witness for `save_after_every_item` at the concrete `wEnv` run: two
items are attempted (the over-long one is skipped), so two saves occur;
the first snapshot contains `a`, and the second — taken after item `b`'s
steps failed — still contains exactly `a`, so the failed item added
nothing but the completed item was never lost. -/
theorem save_after_every_item_witness :
    (0 < (runAll wEnv false .nan ["c"] ⟨none, []⟩).savedStates.length ∧
      ("a" ∈ keysOf ((runAll wEnv false .nan ["c"] ⟨none, []⟩).savedStates.getD 0
          defaultState) ↔
        "a" ∈ keysOf (⟨none, []⟩ : ProcessingState) ∨
          "a" ∈ okIds wEnv ((runAll wEnv false .nan ["c"] ⟨none, []⟩).attempted.take 1))) ∧
    (1 < (runAll wEnv false .nan ["c"] ⟨none, []⟩).savedStates.length ∧
      ("b" ∈ keysOf ((runAll wEnv false .nan ["c"] ⟨none, []⟩).savedStates.getD 1
          defaultState) ↔
        "b" ∈ keysOf (⟨none, []⟩ : ProcessingState) ∨
          "b" ∈ okIds wEnv ((runAll wEnv false .nan ["c"] ⟨none, []⟩).attempted.take 2))) :=
  ⟨⟨by decide,
    (save_after_every_item wEnv false .nan ["c"] ⟨none, []⟩).2 0 "a" (by decide)⟩,
   ⟨by decide,
    (save_after_every_item wEnv false .nan ["c"] ⟨none, []⟩).2 1 "b" (by decide)⟩⟩

/-- Claim C2: `isVideoProcessed` is exactly key membership in
`processedVideos`; outside test mode, no id present in the loaded state is
ever attempted again in a later run; and in test (reprocess) mode an
already-processed item is re-attempted (concrete instance). -/
theorem processed_items_skipped (env : RunEnv) (lim : JsNum)
    (channels : List String) (s₀ : ProcessingState) :
    (∀ (s : ProcessingState) (id : String),
      isVideoProcessed s id = true ↔ id ∈ keysOf s) ∧
    (∀ (x : String), x ∈ keysOf s₀ →
      ∀ v ∈ (runAll env false lim channels s₀).attempted, v.id ≠ x) ∧
    (runAll wEnv true .nan ["c"] ⟨none, [("a", "t0")]⟩).attempted.map Video.id
      = ["a", "b"] :=
  ⟨isVideoProcessed_iff,
   fun x hx v hv => runAll_attempted_fresh env lim channels s₀ x hx v hv,
   by decide⟩

/-- Witness for `processed_items_skipped`: with `a` already in the loaded
state, the one attempted item of the `wEnv` run is `b`, and the theorem
yields `b ≠ a` for it. -/
theorem processed_items_skipped_witness :
    "a" ∈ keysOf (⟨none, [("a", "t0")]⟩ : ProcessingState) ∧
    (⟨"b", none⟩ : Video)
      ∈ (runAll wEnv false .nan ["c"] ⟨none, [("a", "t0")]⟩).attempted ∧
    Video.id ⟨"b", none⟩ ≠ "a" :=
  ⟨by decide, by decide,
   (processed_items_skipped wEnv .nan ["c"] ⟨none, [("a", "t0")]⟩).2.1
     "a" (by decide) ⟨"b", none⟩ (by decide)⟩

/-- Claim C10: the JS comparison `processedCount >= videoLimit` is always
false when `--limit` parsed to `NaN`, so the per-channel loop never
breaks: every fetched video is either attempted or skipped by the two
skip filters, with no bound; while a numeric limit `n` bounds the number
of attempted items per channel by `n` (by `0` when `n` is negative). -/
theorem video_limit_semantics :
    (∀ (k : ℕ), jsGeNat k .nan = false) ∧
    (∀ (env : RunEnv) (t : Bool) (videos : List Video) (s : ProcessingState),
      (runChannel env t .nan videos s 0).notConsidered = [] ∧
      (runChannel env t .nan videos s 0).attempted.length
        + (runChannel env t .nan videos s 0).skipped.length = videos.length) ∧
    (∀ (env : RunEnv) (t : Bool) (n : ℤ) (videos : List Video) (s : ProcessingState),
      (runChannel env t (.num n) videos s 0).attempted.length ≤ n.toNat) :=
  ⟨fun _ => rfl,
   fun env t videos s => runChannel_nan_exhausts env t videos s 0,
   fun env t n videos s => by
     have h := runChannel_num_bound env t n videos s 0
     simpa using h⟩

theorem runOps_saveStateOps (fs : Files) (j : String) :
    runOps fs (saveStateOps j) statePath = some j := by
  simp [runOps, saveStateOps, applyOp]

theorem persistFrom_append (writeOk : ℕ → Bool) (j : String) :
    ∀ (snaps : List String) (k : ℕ) (g : Files),
    persistFrom writeOk k g (snaps ++ [j])
      = saveState (writeOk (k + snaps.length)) (persistFrom writeOk k g snaps) j := by
  intro snaps
  induction snaps with
  | nil => intro k g; simp [persistFrom]
  | cons s rest ih =>
    intro k g
    simp only [List.cons_append, persistFrom, List.append_eq]
    rw [ih (k + 1)]
    have h : k + 1 + rest.length = k + (s :: rest).length := by
      simp [List.length_cons]
      omega
    rw [h]

/-- Counterexample to claim C3: `saveState` is a single direct
`fs.writeFile` to the state path, so at the crash point between the
truncating open and the write the state file holds the empty string —
neither the complete old state `OLD` nor the complete new state `NEW`.
The claimed write-then-rename atomicity does not hold. -/
theorem saveState_not_atomic :
    (saveStateOps "NEW").take 1 = [FsOp.truncate statePath] ∧
    oldFiles statePath = some "OLD" ∧
    runOps oldFiles ((saveStateOps "NEW").take 1) statePath = some "" ∧
    some "" ≠ some "OLD" ∧ ("" : String) ≠ "NEW" := by
  refine ⟨rfl, by decide, by decide, by decide, by decide⟩

/-- Claim C3 (amended): `saveState` serializes the full state and writes
it in one direct write to the state path — a completed save leaves
exactly the new serialized state and the operation sequence contains no
rename step (so it is not write-then-rename and a mid-write crash can
truncate the file, per `saveState_not_atomic`); a failed save is caught,
leaves the file as-is and returns normally, and failed earlier saves
never prevent later saves from landing. -/
theorem saveState_direct_write :
    (∀ (fs : Files) (j : String), runOps fs (saveStateOps j) statePath = some j) ∧
    (∀ (j : String), (saveStateOps j).all (fun op => ! op.isRen) = true) ∧
    (∀ (fs : Files) (j : String), saveState false fs j = fs) ∧
    (∀ (writeOk : ℕ → Bool) (g : Files) (snaps : List String) (j : String),
      writeOk snaps.length = true →
      persistFrom writeOk 0 g (snaps ++ [j]) statePath = some j) :=
  ⟨runOps_saveStateOps,
   fun _ => rfl,
   fun _ _ => rfl,
   fun writeOk g snaps j hok => by
     rw [persistFrom_append writeOk j snaps 0 g]
     simp only [Nat.zero_add, hok, saveState, if_true]
     exact runOps_saveStateOps _ j⟩

/-- Witness for `saveState_direct_write`: the first save of the run
fails, yet the second one lands the full new state. -/
theorem saveState_direct_write_witness :
    (fun k => decide (k = 1)) (["S0"].length) = true ∧
    persistFrom (fun k => decide (k = 1)) 0 oldFiles (["S0"] ++ ["S1"]) statePath
      = some "S1" :=
  ⟨by decide,
   saveState_direct_write.2.2.2 (fun k => decide (k = 1)) oldFiles ["S0"] "S1"
     (by decide)⟩

/-- Counterexample to claim C8: a state file whose content is the four
bytes `null` is syntactically valid JSON but malformed as a state, yet
`loadState` returns the parsed `null` — not the fresh empty state —
because the `catch` fires only when the read or the parse throws. -/
theorem loadState_malformed_not_fresh :
    loadState (.parsed .null) = JValue.null ∧ JValue.null ≠ freshJState :=
  ⟨rfl, fun h => JValue.noConfusion h⟩

/-- Claim C8 (amended): `loadState` returns the fresh empty state
(`lastRun: null`, empty `processedVideos`) exactly when the file read
throws (missing/unreadable file) or the content is not syntactically
valid JSON; any successfully parsed JSON value — well-formed state or
not — is returned as-is, and the run is never failed by `loadState`. -/
theorem loadState_total :
    loadState .fileError = freshJState ∧
    loadState .parseError = freshJState ∧
    ∀ (v : JValue), loadState (.parsed v) = v :=
  ⟨rfl, rfl, fun _ => rfl⟩

theorem cleanupStep_mem (env : TranscribeEnv) (fs : List String) (c p : String) :
    p ∈ cleanupStep env fs c ↔ p ∈ fs ∧ ¬(p = c ∧ env.unlinkOk c = true) := by
  unfold cleanupStep
  cases hcond : (fs.contains c && env.unlinkOk c) with
  | true =>
    rw [if_pos rfl]
    rw [Bool.and_eq_true, List.contains, List.elem_iff] at hcond
    simp only [List.mem_filter, decide_eq_true_eq]
    by_cases hpc : p = c
    · subst hpc
      simp [hcond.2]
    · simp [hpc]
  | false =>
    rw [if_neg (by simp [hcond])]
    rw [Bool.and_eq_false_iff] at hcond
    by_cases hpc : p = c
    · subst hpc
      constructor
      · intro hp
        refine ⟨hp, ?_⟩
        rintro ⟨-, hok⟩
        rcases hcond with hcont | hok'
        · rw [List.contains, ← Bool.not_eq_true, List.elem_iff] at hcont
          exact hcont hp
        · rw [hok] at hok'
          exact Bool.noConfusion hok'
      · exact And.left
    · simp [hpc]

theorem cleanupChunks_mem (env : TranscribeEnv) (chunks : List String) :
    ∀ (fs : List String) (p : String),
    p ∈ cleanupChunks env chunks fs ↔
      p ∈ fs ∧ ¬(p ∈ chunks ∧ env.unlinkOk p = true) := by
  induction chunks with
  | nil => intro fs p; simp [cleanupChunks]
  | cons c rest ih =>
    intro fs p
    show p ∈ cleanupChunks env rest (cleanupStep env fs c) ↔ _
    rw [ih, cleanupStep_mem]
    constructor
    · rintro ⟨⟨hp, hnc⟩, hnr⟩
      refine ⟨hp, ?_⟩
      rintro ⟨hmem, hok⟩
      rcases List.mem_cons.mp hmem with rfl | hmem
      · exact hnc ⟨rfl, hok⟩
      · exact hnr ⟨hmem, hok⟩
    · rintro ⟨hp, hn⟩
      refine ⟨⟨hp, ?_⟩, ?_⟩
      · rintro ⟨rfl, hok⟩
        exact hn ⟨List.mem_cons_self _ _, hok⟩
      · rintro ⟨hmem, hok⟩
        exact hn ⟨List.mem_cons_of_mem _ hmem, hok⟩

theorem transcribeAudio_chunked (env : TranscribeEnv) (p : String) (fs : List String)
    (h1 : env.statOk = true) (h2 : MAX_CHUNK_SIZE_MB < env.sizeMB)
    (h3 : env.duration ≠ 0)
    (h4 : env.chunkFiles (chunkDurationSec env.sizeMB env.duration) ≠ []) :
    transcribeAudio env p fs =
      ⟨some (String.intercalate " "
          ((env.chunkFiles (chunkDurationSec env.sizeMB env.duration)).map
            (fun q => (env.apiText q).getD ""))),
       env.chunkFiles (chunkDurationSec env.sizeMB env.duration),
       true,
       cleanupChunks env (env.chunkFiles (chunkDurationSec env.sizeMB env.duration)) fs⟩ := by
  unfold transcribeAudio
  rw [if_neg (by simp [h1]), if_neg (by exact not_le.mpr h2), if_neg h3, if_neg h4]

/-- Claim C5: for an oversized asset the returned transcript is the
per-chunk texts joined with a single space in chunk order, where a chunk
whose API call threw contributes the empty string; the chunk calls are
issued in exactly that order, so the result is a function of the
position-to-text assignment alone and never of completion order.  In
particular, with chunk 2 of 4 failing the result is
`t0 ++ " " ++ t1 ++ " " ++ "" ++ " " ++ t3`. -/
theorem transcript_assembly (env : TranscribeEnv) (p : String) (fs : List String)
    (h1 : env.statOk = true) (h2 : MAX_CHUNK_SIZE_MB < env.sizeMB)
    (h3 : env.duration ≠ 0)
    (h4 : env.chunkFiles (chunkDurationSec env.sizeMB env.duration) ≠ []) :
    ((transcribeAudio env p fs).result
      = some (String.intercalate " "
          ((env.chunkFiles (chunkDurationSec env.sizeMB env.duration)).map
            (fun q => (env.apiText q).getD ""))) ∧
     (transcribeAudio env p fs).chunkCalls
      = env.chunkFiles (chunkDurationSec env.sizeMB env.duration)) ∧
    (transcribeAudio fourChunkEnv "a.mp3" []).result
      = some ("t0" ++ " " ++ "t1" ++ " " ++ "" ++ " " ++ "t3") := by
  rw [transcribeAudio_chunked env p fs h1 h2 h3 h4]
  exact ⟨⟨rfl, rfl⟩, by decide⟩

/-- Witness for `transcript_assembly` at `fourChunkEnv`. -/
theorem transcript_assembly_witness :
    (transcribeAudio fourChunkEnv "a.mp3" []).result = some "t0 t1  t3" ∧
    (transcribeAudio fourChunkEnv "a.mp3" []).chunkCalls = ["c0", "c1", "c2", "c3"] := by
  have h := transcript_assembly fourChunkEnv "a.mp3" []
    (by decide) (by decide) (by decide) (by decide)
  exact ⟨by rw [h.1.1]; decide, by rw [h.1.2]; rfl⟩

/-- Claim C6: for an oversized asset (whose `statSync` succeeded),
`transcribeAudio` returns `null` exactly when the probed duration is `0`
(ffprobe failure) or the physical split produced zero chunks, and in
both cases no chunk transcription call has been made. -/
theorem transcribe_none_cases (env : TranscribeEnv) (p : String) (fs : List String)
    (h1 : env.statOk = true) (h2 : MAX_CHUNK_SIZE_MB < env.sizeMB) :
    ((transcribeAudio env p fs).result = none ↔
      env.duration = 0 ∨
        env.chunkFiles (chunkDurationSec env.sizeMB env.duration) = []) ∧
    ((transcribeAudio env p fs).result = none →
      (transcribeAudio env p fs).chunkCalls = []) := by
  by_cases h3 : env.duration = 0
  · have he : transcribeAudio env p fs = ⟨none, [], false, fs⟩ := by
      unfold transcribeAudio
      rw [if_neg (by simp [h1]), if_neg (by exact not_le.mpr h2), if_pos h3]
    rw [he]
    exact ⟨⟨fun _ => Or.inl h3, fun _ => rfl⟩, fun _ => rfl⟩
  · by_cases h4 : env.chunkFiles (chunkDurationSec env.sizeMB env.duration) = []
    · have he : transcribeAudio env p fs = ⟨none, [], false, fs⟩ := by
        unfold transcribeAudio
        rw [if_neg (by simp [h1]), if_neg (by exact not_le.mpr h2), if_neg h3, if_pos h4]
      rw [he]
      exact ⟨⟨fun _ => Or.inr h4, fun _ => rfl⟩, fun _ => rfl⟩
    · rw [transcribeAudio_chunked env p fs h1 h2 h3 h4]
      refine ⟨⟨fun hnone => Option.noConfusion hnone, ?_⟩,
        fun hnone => Option.noConfusion hnone⟩
      rintro (h | h) <;> exact absurd h (by assumption)

/-- Witness for `transcribe_none_cases` at `probeFailEnv`. -/
theorem transcribe_none_cases_witness :
    (transcribeAudio probeFailEnv "a.mp3" []).result = none ∧
    (transcribeAudio probeFailEnv "a.mp3" []).chunkCalls = [] := by
  have h := transcribe_none_cases probeFailEnv "a.mp3" [] (by decide) (by decide)
  have hnone : (transcribeAudio probeFailEnv "a.mp3" []).result = none :=
    h.1.mpr (Or.inl (by decide))
  exact ⟨hnone, h.2 hnone⟩

/-- Counterexample to claim C7: after a fully successful chunked
transcription (result returned, cleanup ran, every chunk file deleted),
the source asset file `b.mp3` is still on disk — `transcribeAudio` never
deletes the downloaded audio, which `downloadAudio` deliberately reuses
across runs. -/
theorem source_asset_not_removed :
    (transcribeAudio keptAssetEnv "b.mp3" ["b.mp3", "b_chunk_000.mp3"]).result
      = some "hi" ∧
    (transcribeAudio keptAssetEnv "b.mp3" ["b.mp3", "b_chunk_000.mp3"]).cleanupRan
      = true ∧
    "b.mp3" ∈ (transcribeAudio keptAssetEnv "b.mp3" ["b.mp3", "b_chunk_000.mp3"]).fsAfter ∧
    "b_chunk_000.mp3"
      ∉ (transcribeAudio keptAssetEnv "b.mp3" ["b.mp3", "b_chunk_000.mp3"]).fsAfter := by
  decide

/-- Claim C7 (amended): once an oversized asset's transcription resolves,
`cleanupChunks` has run unconditionally after all chunks were attempted;
a file survives the cleanup iff it was present and is not a chunk file
whose deletion succeeded — so one chunk's deletion failure never aborts
the deletion of its siblings — and the source asset file itself is never
removed by the adapter (it is retained for reuse across runs). -/
theorem chunk_cleanup (env : TranscribeEnv) (p : String) (fs : List String)
    (h1 : env.statOk = true) (h2 : MAX_CHUNK_SIZE_MB < env.sizeMB)
    (h3 : env.duration ≠ 0)
    (h4 : env.chunkFiles (chunkDurationSec env.sizeMB env.duration) ≠ []) :
    (transcribeAudio env p fs).cleanupRan = true ∧
    (transcribeAudio env p fs).chunkCalls
      = env.chunkFiles (chunkDurationSec env.sizeMB env.duration) ∧
    (∀ (q : String), q ∈ (transcribeAudio env p fs).fsAfter ↔
      q ∈ fs ∧ ¬(q ∈ env.chunkFiles (chunkDurationSec env.sizeMB env.duration) ∧
        env.unlinkOk q = true)) ∧
    (p ∉ env.chunkFiles (chunkDurationSec env.sizeMB env.duration) →
      (p ∈ (transcribeAudio env p fs).fsAfter ↔ p ∈ fs)) := by
  rw [transcribeAudio_chunked env p fs h1 h2 h3 h4]
  refine ⟨rfl, rfl, fun q => cleanupChunks_mem env _ fs q, fun hp => ?_⟩
  rw [cleanupChunks_mem env _ fs p]
  constructor
  · exact And.left
  · intro hpf
    exact ⟨hpf, fun hcontra => hp hcontra.1⟩

/-- Witness for `chunk_cleanup` at `unlinkFailEnv`: the failed deletion
of `d0` does not abort the deletion of `d1`, and the source asset
`a.mp3` survives. -/
theorem chunk_cleanup_witness :
    ("d1" ∈ (transcribeAudio unlinkFailEnv "a.mp3" ["a.mp3", "d0", "d1"]).fsAfter ↔
      "d1" ∈ ["a.mp3", "d0", "d1"] ∧
        ¬("d1" ∈ unlinkFailEnv.chunkFiles
            (chunkDurationSec unlinkFailEnv.sizeMB unlinkFailEnv.duration) ∧
          unlinkFailEnv.unlinkOk "d1" = true)) ∧
    ("a.mp3" ∈ (transcribeAudio unlinkFailEnv "a.mp3" ["a.mp3", "d0", "d1"]).fsAfter ↔
      "a.mp3" ∈ ["a.mp3", "d0", "d1"]) ∧
    (transcribeAudio unlinkFailEnv "a.mp3" ["a.mp3", "d0", "d1"]).fsAfter
      = ["a.mp3", "d0"] := by
  have h := chunk_cleanup unlinkFailEnv "a.mp3" ["a.mp3", "d0", "d1"]
    (by decide) (by decide) (by decide) (by decide)
  exact ⟨h.2.2.1 "d1", h.2.2.2 (by decide), by decide⟩

theorem numSegments_pos (c D : ℚ) (hc : 0 < c) (hD : 0 < D) :
    0 < numSegments c D := by
  unfold numSegments
  rw [if_neg (not_le.mpr hc)]
  have h : (0 : ℤ) < ⌈D / c⌉ := Int.ceil_pos.mpr (div_pos hD hc)
  omega

theorem cast_numSegments (c D : ℚ) (hc : 0 < c) (hD : 0 < D) :
    ((numSegments c D : ℕ) : ℚ) = ((⌈D / c⌉ : ℤ) : ℚ) := by
  unfold numSegments
  rw [if_neg (not_le.mpr hc)]
  have h : (0 : ℤ) ≤ ⌈D / c⌉ := le_of_lt (Int.ceil_pos.mpr (div_pos hD hc))
  exact_mod_cast congrArg (fun z : ℤ => (z : ℚ)) (Int.toNat_of_nonneg h)

theorem le_numSegments_mul (c D : ℚ) (hc : 0 < c) (hD : 0 < D) :
    D ≤ ((numSegments c D : ℕ) : ℚ) * c := by
  rw [cast_numSegments c D hc hD]
  have h := Int.le_ceil (D / c)
  calc D = D / c * c := by field_simp
    _ ≤ ((⌈D / c⌉ : ℤ) : ℚ) * c := mul_le_mul_of_nonneg_right h (le_of_lt hc)

theorem pred_numSegments_mul_lt (c D : ℚ) (hc : 0 < c) (hD : 0 < D) :
    (((numSegments c D : ℕ) : ℚ) - 1) * c < D := by
  rw [cast_numSegments c D hc hD]
  have h : ((⌈D / c⌉ : ℤ) : ℚ) < D / c + 1 := Int.ceil_lt_add_one (D / c)
  have h2 : ((⌈D / c⌉ : ℤ) : ℚ) - 1 < D / c := by linarith
  calc (((⌈D / c⌉ : ℤ) : ℚ) - 1) * c < D / c * c := mul_lt_mul_of_pos_right h2 hc
    _ = D := by field_simp

theorem segmentRanges_covers_aux (c D : ℚ) (hc : 0 < c) (hD : 0 < D) :
    ∀ (k i : ℕ), i + (k + 1) = numSegments c D →
    coversFromB ((i : ℚ) * c)
      ((List.range' i (k + 1)).map
        (fun (j : ℕ) => ((j : ℚ) * c, min (((j : ℚ) + 1) * c) D))) D = true := by
  intro k
  induction k with
  | zero =>
    intro i hi
    rw [List.range'_one, List.map_cons, List.map_nil]
    have hcast : (i : ℚ) + 1 = ((numSegments c D : ℕ) : ℚ) := by
      exact_mod_cast congrArg (fun m : ℕ => (m : ℚ)) hi
    have hmin : min (((i : ℚ) + 1) * c) D = D := by
      refine min_eq_right ?_
      rw [hcast]
      exact le_numSegments_mul c D hc hD
    simp [coversFromB, hmin]
  | succ k ih =>
    intro i hi
    rw [List.range'_succ i (k + 1) 1, List.map_cons]
    have hle : ((i : ℚ) + 1) * c ≤ D := by
      have hn : 0 < numSegments c D := by omega
      have hnat : i + 1 ≤ numSegments c D - 1 := by omega
      have hcast : (i : ℚ) + 1 ≤ ((numSegments c D : ℕ) : ℚ) - 1 := by
        have h1 : ((i + 1 : ℕ) : ℚ) ≤ ((numSegments c D - 1 : ℕ) : ℚ) := by
          exact_mod_cast hnat
        push_cast [Nat.cast_sub hn] at h1
        linarith
      calc ((i : ℚ) + 1) * c ≤ (((numSegments c D : ℕ) : ℚ) - 1) * c :=
            mul_le_mul_of_nonneg_right hcast (le_of_lt hc)
        _ ≤ D := le_of_lt (pred_numSegments_mul_lt c D hc hD)
    have hmin : min (((i : ℚ) + 1) * c) D = ((i : ℚ) + 1) * c := min_eq_left hle
    have hstep := ih (i + 1) (by omega)
    have hcast2 : ((i + 1 : ℕ) : ℚ) = (i : ℚ) + 1 := by push_cast; ring
    rw [hcast2] at hstep
    simp only [coversFromB, hmin, beq_self_eq_true, Bool.true_and]
    exact hstep

theorem segmentRanges_covers (c D : ℚ) (hc : 0 < c) (hD : 0 < D) :
    coversFromB 0 (segmentRanges c D) D = true := by
  unfold segmentRanges
  have hn : 0 < numSegments c D := numSegments_pos c D hc hD
  obtain ⟨m, hm⟩ : ∃ m, numSegments c D = m + 1 := ⟨numSegments c D - 1, by omega⟩
  rw [hm, List.range_eq_range']
  have h := segmentRanges_covers_aux c D hc hD m 0 (by omega)
  simpa using h

theorem segmentRanges_getD (c D : ℚ) (i : ℕ) (hi : i < numSegments c D) :
    (segmentRanges c D).getD i (0, 0)
      = ((i : ℚ) * c, min (((i : ℚ) + 1) * c) D) := by
  unfold segmentRanges
  rw [List.getD_eq_getElem _ _ (by simpa using hi)]
  simp

theorem segmentRanges_length (c D : ℚ) :
    (segmentRanges c D).length = numSegments c D := by
  simp [segmentRanges]

theorem mid_segment_le (c D : ℚ) (hc : 0 < c) (hD : 0 < D) (i : ℕ)
    (hi : i + 1 < numSegments c D) : ((i : ℚ) + 1) * c ≤ D := by
  have hn : 0 < numSegments c D := by omega
  have hnat : i + 1 ≤ numSegments c D - 1 := by omega
  have hcast : (i : ℚ) + 1 ≤ ((numSegments c D : ℕ) : ℚ) - 1 := by
    have h1 : ((i + 1 : ℕ) : ℚ) ≤ ((numSegments c D - 1 : ℕ) : ℚ) := by
      exact_mod_cast hnat
    push_cast [Nat.cast_sub hn] at h1
    linarith
  calc ((i : ℚ) + 1) * c ≤ (((numSegments c D : ℕ) : ℚ) - 1) * c :=
        mul_le_mul_of_nonneg_right hcast (le_of_lt hc)
    _ ≤ D := le_of_lt (pred_numSegments_mul_lt c D hc hD)

/-- Counterexample to claim C4: an oversized 21 MB asset of duration 1 s
has `bytesPerSecond` above the whole budget, so the computed
`chunkDurationSec = Math.floor(20 / 21) = 0`; `ffmpeg` is invoked with
`-segment_time 0` and no sequence of zero-length chunks can tile
`[0, 1)` — the planned chunk sequence is not an exact partition of
`[0, D)` with the claimed lengths. -/
theorem planChunks_degenerate :
    MAX_CHUNK_SIZE_MB < (21 : ℚ) ∧
    chunkDurationSec 21 1 = 0 ∧
    planChunks 21 1 = [] ∧
    coversFromB 0 (planChunks 21 1) 1 = false := by
  have hc0 : chunkDurationSec 21 1 = 0 := by
    norm_num [chunkDurationSec, MAX_CHUNK_SIZE_MB]
  have hnil : planChunks 21 1 = [] := by
    simp [planChunks, segmentRanges, numSegments, hc0]
  refine ⟨by norm_num [MAX_CHUNK_SIZE_MB], hc0, hnil, ?_⟩
  rw [hnil]
  simp [coversFromB]

/-- Claim C4 (amended): for an oversized asset whose duration `D` was
probed, provided the computed `chunkDurationSec =
floor(sizeBudget / (size / D))` is at least one second, the planned
chunk sequence is an exact ordered partition of `[0, D)`: chunk `i`
starts at `i * chunkDurationSec`, consecutive chunks meet with no gaps or
overlaps and tile `[0, D)` exactly, every non-final chunk has length
exactly `chunkDurationSec`, and the final chunk is nonempty and no
longer than `chunkDurationSec`. -/
theorem planChunks_partition (sizeMB D : ℚ)
    (hover : MAX_CHUNK_SIZE_MB < sizeMB) (hD : 0 < D)
    (hc1 : 1 ≤ chunkDurationSec sizeMB D) :
    0 < (planChunks sizeMB D).length ∧
    coversFromB 0 (planChunks sizeMB D) D = true ∧
    (∀ (i : ℕ), i < (planChunks sizeMB D).length →
      (planChunks sizeMB D).getD i (0, 0)
        = ((i : ℚ) * ((chunkDurationSec sizeMB D : ℤ) : ℚ),
           min (((i : ℚ) + 1) * ((chunkDurationSec sizeMB D : ℤ) : ℚ)) D)) ∧
    (∀ (i : ℕ), i + 1 < (planChunks sizeMB D).length →
      ((planChunks sizeMB D).getD i (0, 0)).2
          - ((planChunks sizeMB D).getD i (0, 0)).1
        = ((chunkDurationSec sizeMB D : ℤ) : ℚ)) ∧
    (∀ (i : ℕ), i + 1 = (planChunks sizeMB D).length →
      0 < ((planChunks sizeMB D).getD i (0, 0)).2
          - ((planChunks sizeMB D).getD i (0, 0)).1 ∧
      ((planChunks sizeMB D).getD i (0, 0)).2
          - ((planChunks sizeMB D).getD i (0, 0)).1
        ≤ ((chunkDurationSec sizeMB D : ℤ) : ℚ)) := by
  have hc : (0 : ℚ) < ((chunkDurationSec sizeMB D : ℤ) : ℚ) := by
    have h : (0 : ℤ) < chunkDurationSec sizeMB D := by omega
    exact_mod_cast h
  have hplan : planChunks sizeMB D
      = segmentRanges ((chunkDurationSec sizeMB D : ℤ) : ℚ) D := rfl
  rw [hplan, segmentRanges_length]
  set c : ℚ := ((chunkDurationSec sizeMB D : ℤ) : ℚ) with hcdef
  refine ⟨numSegments_pos c D hc hD, segmentRanges_covers c D hc hD,
    fun i hi => segmentRanges_getD c D i hi, fun i hi => ?_, fun i hi => ?_⟩
  · rw [segmentRanges_getD c D i (by omega)]
    dsimp only
    rw [min_eq_left (mid_segment_le c D hc hD i hi)]
    ring
  · rw [segmentRanges_getD c D i (by omega)]
    dsimp only
    have hiq : (i : ℚ) = ((numSegments c D : ℕ) : ℚ) - 1 := by
      have h1 : ((i + 1 : ℕ) : ℚ) = ((numSegments c D : ℕ) : ℚ) := by
        exact_mod_cast congrArg (fun m : ℕ => (m : ℚ)) hi
      push_cast at h1
      linarith
    have hub := le_numSegments_mul c D hc hD
    have hlt := pred_numSegments_mul_lt c D hc hD
    have heq1 : (i : ℚ) * c = (((numSegments c D : ℕ) : ℚ) - 1) * c := by rw [hiq]
    have heq2 : ((i : ℚ) + 1) * c = ((numSegments c D : ℕ) : ℚ) * c := by
      rw [hiq]; ring
    have hexp : ((i : ℚ) + 1) * c = (i : ℚ) * c + c := by ring
    have hmin : min (((i : ℚ) + 1) * c) D = D := by
      refine min_eq_right ?_
      rw [heq2]
      exact hub
    rw [hmin]
    constructor
    · linarith [hlt, heq1]
    · linarith [hub, heq2, hexp]

/-- Witness for `planChunks_partition`: a 25 MB, 100 s asset gets an
80 s chunk duration and the plan `[(0, 80), (80, 100)]`. -/
theorem planChunks_partition_witness :
    (1 : ℤ) ≤ chunkDurationSec 25 100 ∧
    coversFromB 0 (planChunks 25 100) 100 = true ∧
    planChunks 25 100 = [(0, 80), (80, 100)] := by
  have hc80 : chunkDurationSec 25 100 = 80 := by
    norm_num [chunkDurationSec, MAX_CHUNK_SIZE_MB]
  have hn2 : numSegments 80 100 = 2 := by
    rw [numSegments, if_neg (by norm_num)]
    rw [show (⌈(100 : ℚ) / 80⌉ : ℤ) = 2 from by rw [Int.ceil_eq_iff]; norm_num]
    rfl
  have hpl : planChunks 25 100 = [(0, 80), (80, 100)] := by
    rw [planChunks, hc80]
    push_cast
    rw [segmentRanges, hn2]
    simp [List.range_succ]
    norm_num
  refine ⟨by rw [hc80]; norm_num, ?_, hpl⟩
  exact (planChunks_partition 25 100 (by norm_num [MAX_CHUNK_SIZE_MB]) (by norm_num)
    (by rw [hc80]; norm_num)).2.1

theorem head_dropWhile (p : Char → Bool) :
    ∀ (l : List Char) (c : Char), (l.dropWhile p).head? = some c → p c = false := by
  intro l
  induction l with
  | nil => intro c h; simp [List.dropWhile] at h
  | cons a tail ih =>
    intro c h
    rw [List.dropWhile_cons] at h
    split at h
    · exact ih c h
    · rename_i hpa
      rw [List.head?_cons, Option.some.injEq] at h
      subst h
      exact Bool.not_eq_true _ ▸ (by simpa using hpa)

theorem collapseWs_singleton (c : Char) :
    collapseWs [c] = if isWs c then [' '] else [c] := rfl

theorem collapseWs_cons_cons (c d : Char) (rest : List Char) :
    collapseWs (c :: d :: rest) =
      if isWs c then
        (if isWs d then collapseWs (d :: rest) else ' ' :: collapseWs (d :: rest))
      else c :: collapseWs (d :: rest) := by
  cases rest <;> rfl

theorem collapseWs_ne_nil : ∀ (a : Char) (l : List Char), collapseWs (a :: l) ≠ [] := by
  intro a l
  induction l generalizing a with
  | nil =>
    unfold collapseWs
    split <;> simp
  | cons d rest ih =>
    unfold collapseWs
    by_cases ha : isWs a = true
    · by_cases hd : isWs d = true
      · simpa [ha, hd] using ih d
      · simp [ha, hd]
    · simp [ha]

theorem collapseWs_head :
    ∀ (l : List Char) (c : Char), l.head? = some c → isWs c = false →
    (collapseWs l).head? = some c := by
  intro l c hh hc
  match l, hh with
  | [x], hh =>
    rw [List.head?_cons, Option.some.injEq] at hh
    subst hh
    unfold collapseWs
    rw [if_neg (by simp [hc])]
    rfl
  | x :: y :: rest, hh =>
    rw [List.head?_cons, Option.some.injEq] at hh
    subst hh
    unfold collapseWs
    rw [if_neg (by simp [hc])]
    rfl

theorem collapseWs_chain (l : List Char) :
    List.Chain' (fun a b => ¬(isWs a = true ∧ isWs b = true)) (collapseWs l) := by
  induction l with
  | nil => simp [collapseWs]
  | cons c tail ih =>
    cases tail with
    | nil =>
      unfold collapseWs
      split <;> simp
    | cons d rest =>
      by_cases hc : isWs c = true
      · by_cases hd : isWs d = true
        · rw [collapseWs_cons_cons, if_pos hc, if_pos hd]
          exact ih
        · rw [collapseWs_cons_cons, if_pos hc, if_neg hd]
          rw [List.chain'_cons']
          refine ⟨fun b hb => ?_, ih⟩
          rw [collapseWs_head (d :: rest) d rfl (by simpa using hd)] at hb
          rw [Option.mem_def, Option.some.injEq] at hb
          subst hb
          rintro ⟨-, h2⟩
          exact (by simpa using hd : ¬ isWs d = true) h2
      · rw [collapseWs_cons_cons, if_neg hc]
        rw [List.chain'_cons']
        refine ⟨fun b hb => ?_, ih⟩
        rintro ⟨h1, -⟩
        exact hc h1

theorem collapseWs_getLast :
    ∀ (l : List Char), (∀ c, l.getLast? = some c → isWs c = false) →
    ∀ c, (collapseWs l).getLast? = some c → isWs c = false := by
  intro l
  induction l with
  | nil => intro _ c hc; simp [collapseWs] at hc
  | cons x tail ih =>
    intro hlast c hc
    cases tail with
    | nil =>
      have hx : isWs x = false := hlast x rfl
      rw [collapseWs_singleton, if_neg (by simp [hx])] at hc
      rw [List.getLast?_singleton, Option.some.injEq] at hc
      subst hc
      exact hx
    | cons y rest =>
      have hlast' : ∀ a, (y :: rest).getLast? = some a → isWs a = false := by
        intro a ha
        exact hlast a (by rw [List.getLast?_cons_cons]; exact ha)
      obtain ⟨z, zs, hzs⟩ : ∃ z zs, collapseWs (y :: rest) = z :: zs := by
        cases hcy : collapseWs (y :: rest) with
        | nil => exact absurd hcy (collapseWs_ne_nil y rest)
        | cons z zs => exact ⟨z, zs, rfl⟩
      by_cases hx : isWs x = true
      · by_cases hy : isWs y = true
        · rw [collapseWs_cons_cons, if_pos hx, if_pos hy] at hc
          exact ih hlast' c hc
        · rw [collapseWs_cons_cons, if_pos hx, if_neg hy] at hc
          rw [hzs, List.getLast?_cons_cons] at hc
          exact ih hlast' c (by rw [hzs]; exact hc)
      · rw [collapseWs_cons_cons, if_neg hx] at hc
        rw [hzs, List.getLast?_cons_cons] at hc
        exact ih hlast' c (by rw [hzs]; exact hc)

theorem trimChars_head (l : List Char) :
    ∀ c, (trimChars l).head? = some c → isWs c = false := by
  intro c hc
  unfold trimChars at hc
  rw [List.head?_reverse] at hc
  by_cases hz : ((l.dropWhile isWs).reverse.dropWhile isWs) = []
  · rw [hz] at hc
    simp at hc
  · obtain ⟨t, ht⟩ := List.dropWhile_suffix (l := (l.dropWhile isWs).reverse) isWs
    have h1 : ((l.dropWhile isWs).reverse).getLast?
        = (List.dropWhile isWs ((l.dropWhile isWs).reverse)).getLast? := by
      conv_lhs => rw [← ht]
      exact List.getLast?_append_of_ne_nil t hz
    rw [← h1, List.getLast?_reverse] at hc
    exact head_dropWhile isWs l c hc

theorem trimChars_getLast (l : List Char) :
    ∀ c, (trimChars l).getLast? = some c → isWs c = false := by
  intro c hc
  unfold trimChars at hc
  rw [List.getLast?_reverse] at hc
  exact head_dropWhile isWs (l.dropWhile isWs).reverse c hc

/-- Claim C9: the local-whisper `transcribeAudio` returns `null` when
`statSync` or the tool invocation throws, and otherwise the tool's raw
stdout normalized — trimmed, with every whitespace run collapsed to one
space — never the raw output: the returned string has no leading or
trailing whitespace and no two consecutive whitespace characters. -/
theorem local_transcription_normalized :
    (∀ (env : LocalEnv), env.statOk = false ∨ env.execResult = none →
      localTranscribeAudio env = none) ∧
    (∀ (env : LocalEnv) (out : String), env.statOk = true → env.execResult = some out →
      localTranscribeAudio env = some (normalizeWs out) ∧
      (∀ c, (normalizeWs out).data.head? = some c → isWs c = false) ∧
      (∀ c, (normalizeWs out).data.getLast? = some c → isWs c = false) ∧
      List.Chain' (fun a b => ¬(isWs a = true ∧ isWs b = true)) (normalizeWs out).data) := by
  constructor
  · rintro env (hst | hex)
    · unfold localTranscribeAudio
      rw [if_pos (by simp [hst])]
    · unfold localTranscribeAudio
      split
      · rfl
      · rw [hex]
  · intro env out hst hex
    refine ⟨?_, ?_, ?_, ?_⟩
    · unfold localTranscribeAudio
      rw [if_neg (by simp [hst]), hex]
    · intro c hc
      have hT : (normalizeWs out).data = collapseWs (trimChars out.data) := rfl
      rw [hT] at hc
      cases hh : (trimChars out.data).head? with
      | none =>
        have hnil : trimChars out.data = [] := List.head?_eq_none_iff.mp hh
        rw [hnil] at hc
        simp [collapseWs] at hc
      | some d =>
        have hd : isWs d = false := trimChars_head out.data d hh
        rw [collapseWs_head _ d hh hd, Option.some.injEq] at hc
        subst hc
        exact hd
    · intro c hc
      have hT : (normalizeWs out).data = collapseWs (trimChars out.data) := rfl
      rw [hT] at hc
      exact collapseWs_getLast (trimChars out.data) (trimChars_getLast out.data) c hc
    · exact collapseWs_chain (trimChars out.data)

/-- Witness for `local_transcription_normalized`: a failing invocation
yields `null`, and stdout `" a  b "` yields exactly `"a b"` — not the
raw output. -/
theorem local_transcription_normalized_witness :
    localTranscribeAudio ⟨false, none⟩ = none ∧
    localTranscribeAudio ⟨true, some " a  b "⟩ = some (normalizeWs " a  b ") ∧
    normalizeWs " a  b " = "a b" ∧ (" a  b " : String) ≠ "a b" :=
  ⟨local_transcription_normalized.1 ⟨false, none⟩ (Or.inl rfl),
   (local_transcription_normalized.2 ⟨true, some " a  b "⟩ " a  b " rfl rfl).1,
   by decide, by decide⟩

end YTSum
